import Mathlib

/-!
Shallow embedding of the utility functions and classes of the d2l
TensorFlow notebook collection (the `sec_utils` notebook and friends),
together with proofs of the specification's testable properties.

Python floats are modelled as rationals (`ℚ`) where only field
arithmetic occurs, and as reals (`ℝ`) where a square root is taken;
tensors are nested lists; Python's `zip`, `split`, slicing and list
arithmetic are modelled by the corresponding `List` operations with
identical semantics (in particular `zip` truncates to the shorter
argument, as in Python).  Fatal `assert` failures are modelled by
`Except.error`.
-/

set_option autoImplicit false

namespace D2L

/-! ## Definitions -/

/-! ### `truncate_pad`

```python
def truncate_pad(line, num_steps, padding_token):
    if len(line) > num_steps:
        return line[:num_steps]  # Truncate
    return line + [padding_token] * (num_steps - len(line))  # Pad
```
-/

def truncate_pad {α : Type} (line : List α) (num_steps : ℕ) (padding_token : α) :
    List α :=
  if line.length > num_steps then
    line.take num_steps
  else
    line ++ List.replicate (num_steps - line.length) padding_token

/-! ### `Accumulator`

```python
class Accumulator:
    def __init__(self, n):
        self.data = [0.0] * n
    def add(self, *args):
        self.data = [a + float(b) for a, b in zip(self.data, args)]
    def reset(self):
        self.data = [0.0] * len(self.data)
    def __getitem__(self, idx):
        return self.data[idx]
```

The mutable `self.data` list is modelled by explicit state passing: each
operation maps the current `data` list to the next one.  Python's `zip`
truncates to the shorter of its arguments, and so does `List.zip`.
-/

namespace Accumulator

def init (n : ℕ) : List ℚ := List.replicate n 0

def add (data : List ℚ) (args : List ℚ) : List ℚ :=
  (data.zip args).map (fun p => p.1 + p.2)

def reset (data : List ℚ) : List ℚ := List.replicate data.length 0

def getitem (data : List ℚ) (idx : ℕ) : ℚ := data.getD idx 0

/-- One `Accumulator` mutation: either an `add` call with a list of
arguments, or a `reset` call. -/
inductive Op : Type
  | addOp (args : List ℚ) : Op
  | resetOp : Op

def applyOp (data : List ℚ) : Op → List ℚ
  | Op.addOp args => add data args
  | Op.resetOp => reset data

/-- The `data` list after running a sequence of operations from a start
state. -/
def run (data : List ℚ) (ops : List Op) : List ℚ :=
  ops.foldl applyOp data

end Accumulator

/-! ### `grad_clipping`

```python
def grad_clipping(grads, theta):
    theta = tf.constant(theta, dtype=tf.float32)
    new_grad = []
    for grad in grads:
        if isinstance(grad, tf.IndexedSlices):
            new_grad.append(tf.convert_to_tensor(grad))
        else:
            new_grad.append(grad)
    norm = tf.math.sqrt(sum((tf.reduce_sum(grad ** 2)).numpy()
                        for grad in new_grad))
    norm = tf.cast(norm, tf.float32)
    if tf.greater(norm, theta):
        for i, grad in enumerate(new_grad):
            new_grad[i] = grad * theta / norm
    else:
        new_grad = new_grad
    return new_grad
```

Gradient tensors are modelled as lists of real entries (flattening does
not change sums of squares or elementwise scaling); the
`IndexedSlices`-to-dense conversion is the identity on values.
Floating-point arithmetic is idealised as real arithmetic, which is the
reading the specification's "up to floating-point tolerance" demands.
-/

noncomputable def sumSquares (grads : List (List ℝ)) : ℝ :=
  (grads.map (fun g => (g.map (fun x => x ^ 2)).sum)).sum

/-- The global L2 norm across all tensors, as computed by
`grad_clipping`. -/
noncomputable def globalNorm (grads : List (List ℝ)) : ℝ :=
  Real.sqrt (sumSquares grads)

noncomputable def grad_clipping (grads : List (List ℝ)) (theta : ℝ) :
    List (List ℝ) :=
  if theta < globalNorm grads then
    grads.map (fun g => g.map (fun x => x * theta / globalNorm grads))
  else
    grads

/-! ### `predict_seq2seq` decoding loop

```python
for _ in range(num_steps):
    Y, dec_state = net.decoder(dec_X, dec_state, training=False)
    dec_X = tf.argmax(Y, axis=2)
    pred = tf.squeeze(dec_X, axis=0)
    if save_attention_weights:
        attention_weight_seq.append(net.decoder.attention_weights)
    if pred == tgt_vocab['<eos>']:
        break
    output_seq.append(pred.numpy())
```

The trained decoder together with the arg-max readout is abstracted as
a deterministic transition `step : ℕ → σ → ℕ × σ` from the fed-back
input token and decoder state to the predicted token and next state.
`predictLoop step eos n x s` returns the collected `output_seq` and the
number of decoder calls performed when starting from input token `x`
and state `s` with `n` remaining loop iterations. -/

def predictLoop {σ : Type} (step : ℕ → σ → ℕ × σ) (eos : ℕ) :
    ℕ → ℕ → σ → List ℕ × ℕ
  | 0, _, _ => ([], 0)
  | n + 1, x, s =>
    let p := step x s
    if p.1 = eos then ([], 1)
    else
      let r := predictLoop step eos n p.1 p.2
      (p.1 :: r.1, r.2 + 1)

/-- The number of decoder calls `predict_seq2seq` performs. -/
def decoderSteps {σ : Type} (step : ℕ → σ → ℕ × σ) (eos : ℕ)
    (n x : ℕ) (s : σ) : ℕ :=
  (predictLoop step eos n x s).2

/-- The prediction the decoder would produce at the (0-indexed) `i`-th
step of the feed-back iteration starting from input `x` and state `s`. -/
def predAt {σ : Type} (step : ℕ → σ → ℕ × σ) : ℕ → ℕ → σ → ℕ
  | 0, x, s => (step x s).1
  | i + 1, x, s => predAt step i (step x s).1 (step x s).2

/-! ### `tokenize` and `extract`

```python
def tokenize(lines, token='word'):
    assert token in ('word', 'char'), 'Unknown token type: ' + token
    return [line.split() if token == 'word' else list(line) for line in lines]

def extract(filename, folder=None):
    base_dir = os.path.dirname(filename)
    _, ext = os.path.splitext(filename)
    assert ext in ('.zip', '.tar', '.gz'), 'Only support zip/tar files.'
    ...
```

Text lines are lists of characters.  Python's `str.split()` with no
separator splits on runs of whitespace and discards empty pieces;
`pyIsSpace` models its ASCII whitespace set. -/

def pyIsSpace (c : Char) : Bool :=
  c = ' ' || c = '\t' || c = '\n' || c = '\r' || c = '\x0b' || c = '\x0c'

/-- Model of Python's `str.split()` (no separator): the maximal runs of
non-whitespace characters, in order. -/
def pySplitWords : List Char → List (List Char)
  | [] => []
  | c :: cs =>
    if pyIsSpace c then pySplitWords cs
    else
      (c :: cs.takeWhile (fun d => ! pyIsSpace d)) ::
        pySplitWords (cs.dropWhile (fun d => ! pyIsSpace d))
termination_by l => l.length
decreasing_by
  · simp
  · have hle := (List.dropWhile_sublist (l := cs)
      (fun d => ! pyIsSpace d)).length_le
    simp
    omega

def tokenize (lines : List (List Char)) (token : String) :
    Except String (List (List (List Char))) :=
  if token = "word" ∨ token = "char" then
    Except.ok (lines.map (fun line =>
      if token = "word" then pySplitWords line else line.map (fun c => [c])))
  else
    Except.error ("Unknown token type: " ++ token)

/-- Index of the last occurrence of a character in a list, if any. -/
def lastIdxOf (c : Char) : List Char → Option ℕ
  | [] => none
  | d :: ds =>
    match lastIdxOf c ds with
    | some i => some (i + 1)
    | none => if d = c then some 0 else none

/-- Model of the extension returned by `os.path.splitext`: the suffix
from the last dot, provided that dot lies after the last path separator
and the file name does not consist solely of dots up to it. -/
def splitextExt (p : List Char) : List Char :=
  match lastIdxOf '.' p with
  | none => []
  | some d =>
    let s : ℕ :=
      match lastIdxOf '/' p with
      | some i => i + 1
      | none => 0
    if s ≤ d ∧ ((p.drop s).take (d - s)).any (fun c => c != '.') then
      p.drop d
    else
      []

/-- The assertion at the top of `extract` (the archive-opening side
effects after it are external library calls). -/
def extract (filename : List Char) : Except String Unit :=
  if splitextExt filename = ".zip".toList ∨
      splitextExt filename = ".tar".toList ∨
      splitextExt filename = ".gz".toList then
    Except.ok ()
  else
    Except.error "Only support zip/tar files."

/-- `MaxChunks line ts` holds exactly when `ts` is the in-order list of
maximal whitespace-free substrings of `line` (splitting on whitespace
boundaries only): whitespace characters separate chunks, each chunk is
nonempty and whitespace-free, and each chunk is maximal because the
remainder after it starts with whitespace or is empty.  This definition
follows the specification's words and is compared with the
`str.split()` model `pySplitWords`. -/
inductive MaxChunks : List Char → List (List Char) → Prop
  | nil : MaxChunks [] []
  | ws {c : Char} {cs : List Char} {ts : List (List Char)} :
      pyIsSpace c = true → MaxChunks cs ts → MaxChunks (c :: cs) ts
  | chunk {w rest : List Char} {ts : List (List Char)} :
      w ≠ [] → (∀ c ∈ w, pyIsSpace c = false) →
      (rest = [] ∨ ∃ d ds, rest = d :: ds ∧ pyIsSpace d = true) →
      MaxChunks rest ts → MaxChunks (w ++ rest) (w :: ts)

/-! ### `download`

```python
def download(url, folder='../data', sha1_hash=None):
    if not url.startswith('http'):
        # For back compatability
        url, sha1_hash = DATA_HUB[url]
    os.makedirs(folder, exist_ok=True)
    fname = os.path.join(folder, url.split('/')[-1])
    # Check if hit cache
    if os.path.exists(fname) and sha1_hash:
        sha1 = hashlib.sha1()
        ... # hash the cached file
        if sha1.hexdigest() == sha1_hash:
            return fname
    # Download
    r = requests.get(url, stream=True, verify=True)
    with open(fname, 'wb') as f:
        f.write(r.content)
    return fname
```

Paths, URLs and digests are lists of characters (as in the `extract`
model).  The local file system is modelled as a partial map from paths
to file contents (lists of bytes); the SHA-1 hexdigest function, the
`DATA_HUB` table and the remote content fetched by `requests.get` are
opaque parameters.  SHA-1 hexdigests are nonempty strings, so the
Python truthiness test `and sha1_hash` coincides with
`sha1_hash is not None`.  `download` returns the local path, the file
system after the call, and whether a network fetch happened. -/

/-- Model of Python's `str.split(sep)` for a single-character
separator: split at every occurrence, keeping empty pieces. -/
def splitOnChar (sep : Char) : List Char → List (List Char)
  | [] => [[]]
  | c :: cs =>
    if c = sep then [] :: splitOnChar sep cs
    else
      match splitOnChar sep cs with
      | [] => [[c]]
      | w :: ws => (c :: w) :: ws

def download (hub : List Char → List Char × List Char)
    (hash : List ℕ → List Char) (remote : List ℕ)
    (url folder : List Char) (sha1_hash : Option (List Char))
    (fs : List Char → Option (List ℕ)) :
    List Char × (List Char → Option (List ℕ)) × Bool :=
  let p : List Char × Option (List Char) :=
    if "http".toList.isPrefixOf url then (url, sha1_hash)
    else ((hub url).1, some (hub url).2)
  let fname := folder ++ '/' :: (splitOnChar '/' p.1).getLastD []
  match fs fname, p.2 with
  | some content, some h =>
    if hash content = h then
      (fname, fs, false)
    else
      (fname, fun q => if q = fname then some remote else fs q, true)
  | _, _ => (fname, fun q => if q = fname then some remote else fs q, true)

/-! ### `build_array_nmt`

```python
def build_array_nmt(lines, vocab, num_steps):
    lines = [vocab[l] for l in lines]
    lines = [l + [vocab['<eos>']] for l in lines]
    array = tf.constant([truncate_pad(
        l, num_steps, vocab['<pad>']) for l in lines])
    valid_len = tf.reduce_sum(
        tf.cast(array != vocab['<pad>'], tf.int32), 1)
    return array, valid_len
```

The vocabulary's token-to-index lookup is an opaque function
`vocab : String → ℕ`; `tf.reduce_sum` of the cast inequality along axis
1 counts the entries of each row that differ from the padding index. -/

def build_array_nmt (vocab : String → ℕ) (lines : List (List String))
    (num_steps : ℕ) : List (List ℕ) × List ℕ :=
  let idxLines := lines.map (fun l => l.map vocab)
  let eosLines := idxLines.map (fun l => l ++ [vocab "<eos>"])
  let array := eosLines.map (fun l => truncate_pad l num_steps (vocab "<pad>"))
  let valid_len := array.map (fun row => row.countP (fun x => x != vocab "<pad>"))
  (array, valid_len)

/-! ### `sequence_mask`

```python
def sequence_mask(X, valid_len, value=0):
    maxlen = X.shape[1]
    mask = tf.range(start=0, limit=maxlen, dtype=tf.float32)[
        None, :] < tf.cast(valid_len[:, None], dtype=tf.float32)
    if len(X.shape) == 3:
        return tf.where(tf.expand_dims(mask, axis=-1), X, value)
    else:
        return tf.where(mask, X, value)
```

Tensors are rectangular, so every row of `X` has length
`maxlen = X.shape[1]` and the broadcast comparison gives, at position
`(i, j)`, the condition `j < valid_len[i]`.  The 2-D and 3-D branches of
the single Python function are modelled as `sequence_mask2` and
`sequence_mask3`. -/

def sequence_mask2 {α : Type} (X : List (List α)) (valid_len : List ℕ)
    (value : α) : List (List α) :=
  (X.zip valid_len).map (fun rv =>
    rv.1.enum.map (fun jx => if jx.1 < rv.2 then jx.2 else value))

def sequence_mask3 {α : Type} (X : List (List (List α))) (valid_len : List ℕ)
    (value : α) : List (List (List α)) :=
  (X.zip valid_len).map (fun rv =>
    rv.1.enum.map (fun jx =>
      if jx.1 < rv.2 then jx.2 else jx.2.map (fun _ => value)))

/-! ## Theorems -/

theorem Accumulator.length_add (data args : List ℚ) :
    (Accumulator.add data args).length = min data.length args.length := by
  simp [Accumulator.add]

theorem Accumulator.length_reset (data : List ℚ) :
    (Accumulator.reset data).length = data.length := by
  simp [Accumulator.reset]

theorem Accumulator.length_run (n : ℕ) (ops : List Accumulator.Op)
    (data : List ℚ) (hdata : data.length = n)
    (hops : ∀ args : List ℚ, Accumulator.Op.addOp args ∈ ops → n ≤ args.length) :
    (Accumulator.run data ops).length = n := by
  induction ops generalizing data with
  | nil => simpa [Accumulator.run] using hdata
  | cons op ops ih =>
    cases op with
    | addOp args =>
      have hargs : n ≤ args.length := hops args (by simp)
      have : (Accumulator.add data args).length = n := by
        rw [Accumulator.length_add, hdata]
        omega
      exact ih (Accumulator.add data args) this
        (fun a ha => hops a (List.mem_cons_of_mem _ ha))
    | resetOp =>
      exact ih (Accumulator.reset data)
        (by rw [Accumulator.length_reset, hdata])
        (fun a ha => hops a (List.mem_cons_of_mem _ ha))

theorem Accumulator.getD_add (data args : List ℚ) (i : ℕ)
    (h1 : i < data.length) (h2 : i < args.length) :
    (Accumulator.add data args).getD i 0 = data.getD i 0 + args.getD i 0 := by
  have hlen : i < ((data.zip args).map (fun p => p.1 + p.2)).length := by
    simp [Nat.lt_min]
    exact ⟨h1, h2⟩
  rw [Accumulator.add, List.getD_eq_getElem _ _ hlen,
    List.getD_eq_getElem _ _ h1, List.getD_eq_getElem _ _ h2]
  simp

theorem Accumulator.getD_run_adds (i : ℕ) (calls : List (List ℚ)) :
    ∀ data : List ℚ, i < data.length → (∀ c ∈ calls, i < c.length) →
    (Accumulator.run data (calls.map Accumulator.Op.addOp)).getD i 0
      = data.getD i 0 + (calls.map (fun c => c.getD i 0)).sum := by
  induction calls with
  | nil => intro data _ _; simp [Accumulator.run]
  | cons c calls ih =>
    intro data hdata hc
    have hci : i < c.length := hc c (by simp)
    have hlen : i < (Accumulator.add data c).length := by
      rw [Accumulator.length_add]
      omega
    have step :
        Accumulator.run data ((c :: calls).map Accumulator.Op.addOp)
          = Accumulator.run (Accumulator.add data c)
              (calls.map Accumulator.Op.addOp) := rfl
    rw [step, ih (Accumulator.add data c) hlen
      (fun a ha => hc a (List.mem_cons_of_mem _ ha)),
      Accumulator.getD_add data c i hdata hci]
    simp [add_assoc]

theorem sumSquares_nonneg (grads : List (List ℝ)) : 0 ≤ sumSquares grads := by
  apply List.sum_nonneg
  intro x hx
  obtain ⟨g, _, rfl⟩ := List.mem_map.mp hx
  apply List.sum_nonneg
  intro y hy
  obtain ⟨z, _, rfl⟩ := List.mem_map.mp hy
  positivity

theorem sumSquares_scale (grads : List (List ℝ)) (c : ℝ) :
    sumSquares (grads.map (fun g => g.map (fun x => x * c)))
      = c ^ 2 * sumSquares grads := by
  rw [sumSquares, sumSquares, List.map_map]
  have inner : ∀ g : List ℝ,
      (((g.map fun x => x * c).map fun x => x ^ 2)).sum
        = (g.map (fun x => x ^ 2)).sum * c ^ 2 := by
    intro g
    rw [List.map_map]
    have : ((fun x : ℝ => x ^ 2) ∘ fun x => x * c)
        = fun x : ℝ => x ^ 2 * c ^ 2 := by
      funext x
      simp [mul_pow]
    rw [this, List.sum_map_mul_right]
  have : ((fun g : List ℝ => (g.map (fun x => x ^ 2)).sum) ∘
      fun g : List ℝ => g.map fun x => x * c)
      = fun g : List ℝ => (g.map (fun x => x ^ 2)).sum * c ^ 2 := by
    funext g
    simpa using inner g
  rw [this, List.sum_map_mul_right, mul_comm]

/-- C1: with a positive threshold `theta`, `grad_clipping` returns the
input unchanged when the global L2 norm across all tensors is at most
`theta`, and otherwise scales every entry by `theta/norm` so that the
result's global norm equals `theta` exactly (in the real-number
idealisation of float arithmetic). -/
theorem grad_clipping_spec (grads : List (List ℝ)) (theta : ℝ)
    (htheta : 0 < theta) :
    (globalNorm grads ≤ theta → grad_clipping grads theta = grads) ∧
    (theta < globalNorm grads →
      grad_clipping grads theta
        = grads.map (fun g => g.map (fun x => x * theta / globalNorm grads)) ∧
      globalNorm (grad_clipping grads theta) = theta) := by
  constructor
  · intro h
    rw [grad_clipping, if_neg (not_lt.mpr h)]
  · intro h
    have hn : 0 < globalNorm grads := htheta.trans h
    have hscaled : grad_clipping grads theta
        = grads.map (fun g => g.map (fun x => x * theta / globalNorm grads)) := by
      rw [grad_clipping, if_pos h]
    refine ⟨hscaled, ?_⟩
    have hfun : (fun g : List ℝ => g.map fun x => x * theta / globalNorm grads)
        = fun g : List ℝ => g.map fun x => x * (theta / globalNorm grads) := by
      funext g
      simp [mul_div_assoc]
    rw [hscaled, globalNorm, hfun, sumSquares_scale,
      Real.sqrt_mul (sq_nonneg _) _,
      Real.sqrt_sq (le_of_lt (div_pos htheta hn))]
    have hs : Real.sqrt (sumSquares grads) = globalNorm grads := rfl
    rw [hs, div_mul_cancel₀ theta (ne_of_gt hn)]

/-- Witness for C1 at `grads = [[3],[4]]`, `theta = 1`: the global norm
is `5 > 1`, and the clipped gradients have global norm exactly `1`. -/
theorem grad_clipping_spec_witness :
    0 < (1 : ℝ) ∧ 1 < globalNorm [[(3 : ℝ)], [4]] ∧
      globalNorm (grad_clipping [[(3 : ℝ)], [4]] 1) = 1 := by
  have h25 : sumSquares [[(3 : ℝ)], [4]] = 25 := by
    simp [sumSquares]
    norm_num
  have h5 : globalNorm [[(3 : ℝ)], [4]] = 5 := by
    rw [globalNorm, h25, show (25 : ℝ) = 5 ^ 2 by norm_num,
      Real.sqrt_sq (by norm_num : (0 : ℝ) ≤ 5)]
  refine ⟨by norm_num, by rw [h5]; norm_num, ?_⟩
  exact ((grad_clipping_spec [[(3 : ℝ)], [4]] 1 (by norm_num)).2
    (by rw [h5]; norm_num)).2

/-- C2 counterexample: with `num_steps = 1` and a decoder that outputs
the end-of-sequence token immediately, exactly one decoder step is
performed — not strictly fewer than `num_steps` — even though the
end-of-sequence token is produced at one of the performed steps, so the
claimed "if and only if" fails. -/
theorem predict_steps_counterexample :
    ¬ (decoderSteps (fun _ _ => (7, 0)) 7 1 0 0 < 1 ↔
        ∃ i, i < decoderSteps (fun _ _ => (7, 0)) 7 1 0 0 ∧
          predAt (fun _ _ => (7, 0)) i 0 0 = 7) := by
  rw [show decoderSteps (fun _ _ => (7, 0)) 7 1 0 0 = 1 from rfl]
  intro h
  exact absurd (h.mpr ⟨0, one_pos, rfl⟩) (by omega)

/-- C2 (amended): the decoding loop performs at most `num_steps` decoder
steps, and performs strictly fewer than `num_steps` steps if and only if
the decoder produces the end-of-sequence token at one of the first
`num_steps - 1` steps (an end-of-sequence token first produced at the
final allowed step still takes exactly `num_steps` decoder calls). -/
theorem predict_seq2seq_steps {σ : Type} (step : ℕ → σ → ℕ × σ)
    (eos : ℕ) (n x : ℕ) (s : σ) :
    decoderSteps step eos n x s ≤ n ∧
    (decoderSteps step eos n x s < n ↔
      ∃ i, i + 1 < n ∧ predAt step i x s = eos) := by
  induction n generalizing x s with
  | zero => simp [decoderSteps, predictLoop]
  | succ n ih =>
    by_cases hp : (step x s).1 = eos
    · have hloop : decoderSteps step eos (n + 1) x s = 1 := by
        simp [decoderSteps, predictLoop, hp]
      constructor
      · rw [hloop]; omega
      · rw [hloop]
        constructor
        · intro h
          exact ⟨0, h, by simpa [predAt] using hp⟩
        · rintro ⟨i, hi, _⟩
          omega
    · have hloop : decoderSteps step eos (n + 1) x s
          = decoderSteps step eos n (step x s).1 (step x s).2 + 1 := by
        simp [decoderSteps, predictLoop, hp]
      obtain ⟨ihle, ihiff⟩ := ih (step x s).1 (step x s).2
      constructor
      · rw [hloop]; omega
      · rw [hloop]
        constructor
        · intro h
          obtain ⟨i, hi, hpe⟩ := ihiff.mp (by omega)
          exact ⟨i + 1, by omega, by simpa [predAt] using hpe⟩
        · rintro ⟨i, hi, hpe⟩
          cases i with
          | zero => exact absurd (by simpa [predAt] using hpe) hp
          | succ i =>
            have hstep : predAt step i (step x s).1 (step x s).2 = eos := by
              simpa [predAt] using hpe
            have := ihiff.mpr ⟨i, by omega, hstep⟩
            omega

/-- C3: `truncate_pad` always returns a sequence of length exactly
`num_steps`: the first `num_steps` tokens when the input is longer, and
the input followed by `num_steps - len` copies of the padding token
otherwise. -/
theorem truncate_pad_spec {α : Type} (line : List α) (num_steps : ℕ)
    (padding_token : α) :
    (truncate_pad line num_steps padding_token).length = num_steps ∧
    truncate_pad line num_steps padding_token =
      (if num_steps < line.length then line.take num_steps
       else line ++ List.replicate (num_steps - line.length) padding_token) := by
  constructor
  · rw [truncate_pad]
    split
    · rw [List.length_take]
      omega
    · rw [List.length_append, List.length_replicate]
      omega
  · rfl

/-- C4 counterexample: the claim asserts the slot count is preserved
regardless of how many values each `add` call passes, but an `add` call
passing a single value to a 2-slot accumulator shrinks `data` to one
slot, because Python's `zip` truncates to the shorter argument. -/
theorem accumulator_slot_count_counterexample :
    ¬ (Accumulator.run (Accumulator.init 2)
        [Accumulator.Op.addOp [(5 : ℚ)]]).length = 2 := by
  decide

/-- C4 (amended): for every Accumulator constructed with `n` slots, the
number of slots remains `n` after every sequence of `add` and `reset`
operations in which each `add` call passes at least `n` values. -/
theorem accumulator_slot_count_invariant (n : ℕ) (ops : List Accumulator.Op)
    (hops : ∀ args : List ℚ, Accumulator.Op.addOp args ∈ ops → n ≤ args.length) :
    (Accumulator.run (Accumulator.init n) ops).length = n :=
  Accumulator.length_run n ops (Accumulator.init n)
    (by simp [Accumulator.init]) hops

/-- Witness for C4 (amended) at `n = 2` and a concrete operation
sequence. -/
theorem accumulator_slot_count_invariant_witness :
    (∀ args : List ℚ,
        Accumulator.Op.addOp args ∈
          [Accumulator.Op.addOp [(1 : ℚ), 2, 3], Accumulator.Op.resetOp,
            Accumulator.Op.addOp [(4 : ℚ), 5]] →
        2 ≤ args.length) ∧
    (Accumulator.run (Accumulator.init 2)
        [Accumulator.Op.addOp [(1 : ℚ), 2, 3], Accumulator.Op.resetOp,
          Accumulator.Op.addOp [(4 : ℚ), 5]]).length = 2 :=
  have h : ∀ args : List ℚ,
      Accumulator.Op.addOp args ∈
        [Accumulator.Op.addOp [(1 : ℚ), 2, 3], Accumulator.Op.resetOp,
          Accumulator.Op.addOp [(4 : ℚ), 5]] →
      2 ≤ args.length := by
    intro args ha
    simp only [List.mem_cons, List.not_mem_nil, or_false,
      Accumulator.Op.addOp.injEq, reduceCtorEq, false_or] at ha
    rcases ha with rfl | rfl <;> decide
  ⟨h, accumulator_slot_count_invariant 2 _ h⟩

/-- C5: after `add` calls contributing values to slot `i` (each call
passing a value for slot `i`), indexing slot `i` returns the sum of the
contributed values; and after `reset`, every slot reads zero. -/
theorem accumulator_sum_spec (n i : ℕ) (calls : List (List ℚ))
    (hi : i < n) (hc : ∀ c ∈ calls, i < c.length) :
    Accumulator.getitem
        (Accumulator.run (Accumulator.init n)
          (calls.map Accumulator.Op.addOp)) i
      = (calls.map (fun c => c.getD i 0)).sum ∧
    ∀ (data : List ℚ) (j : ℕ),
      Accumulator.getitem (Accumulator.reset data) j = 0 := by
  constructor
  · have h0 : i < (Accumulator.init n).length := by
      simp [Accumulator.init]
      omega
    rw [Accumulator.getitem,
      Accumulator.getD_run_adds i calls (Accumulator.init n) h0 hc]
    simp [Accumulator.init]
  · intro data j
    rw [Accumulator.getitem, Accumulator.reset]
    rcases Nat.lt_or_ge j data.length with h | h
    · rw [List.getD_eq_getElem _ _ (by simpa using h)]
      simp
    · rw [List.getD_eq_default _ _ (by simpa using h)]

/-- Witness for C5: two `add` calls contributing `1` and `3` to slot 0
of a 2-slot accumulator leave slot 0 equal to `4`. -/
theorem accumulator_sum_spec_witness :
    (0 < 2 ∧ ∀ c ∈ [[(1 : ℚ), 2], [3, 4]], 0 < c.length) ∧
    (Accumulator.getitem
        (Accumulator.run (Accumulator.init 2)
          ([[(1 : ℚ), 2], [3, 4]].map Accumulator.Op.addOp)) 0
      = ([[(1 : ℚ), 2], [3, 4]].map (fun c => c.getD 0 0)).sum ∧
    ∀ (data : List ℚ) (j : ℕ),
      Accumulator.getitem (Accumulator.reset data) j = 0) :=
  ⟨⟨by decide, by decide⟩,
    accumulator_sum_spec 2 0 [[(1 : ℚ), 2], [3, 4]] (by decide) (by decide)⟩

/-- C6: `extract` fails with an assertion error exactly on filenames
whose extension is not `.zip`, `.tar` or `.gz`, and `tokenize` fails
with an assertion error exactly on token modes other than `word` and
`char`; inside those sets no failure is raised.  The failures are
immediate (raised before any other work) and surfaced to the caller as
the error value. -/
theorem extract_tokenize_assertions (filename : List Char) (token : String)
    (lines : List (List Char)) :
    ((extract filename).isOk = true ↔
      (splitextExt filename = ".zip".toList ∨
        splitextExt filename = ".tar".toList ∨
        splitextExt filename = ".gz".toList)) ∧
    ((tokenize lines token).isOk = true ↔
      (token = "word" ∨ token = "char")) := by
  constructor
  · rw [extract]
    split
    · simp_all [Except.isOk, Except.toBool]
    · simp_all [Except.isOk, Except.toBool]
  · rw [tokenize]
    split
    · simp_all [Except.isOk, Except.toBool]
    · simp_all [Except.isOk, Except.toBool]

theorem charTokens_join (line : List Char) :
    ((line.map (fun c => [c])).flatten : List Char) = line := by
  induction line with
  | nil => rfl
  | cons c cs ih => simp [ih]

theorem pySplitWords_maxChunks (line : List Char) :
    MaxChunks line (pySplitWords line) := by
  have H : ∀ (n : ℕ) (l : List Char), l.length ≤ n →
      MaxChunks l (pySplitWords l) := by
    intro n
    induction n with
    | zero =>
      intro l hl
      have hnil : l = [] := List.eq_nil_of_length_eq_zero (Nat.le_zero.mp hl)
      subst hnil
      rw [pySplitWords]
      exact MaxChunks.nil
    | succ n ih =>
      intro l hl
      match l with
      | [] =>
        rw [pySplitWords]
        exact MaxChunks.nil
      | c :: cs =>
        have hlen : cs.length ≤ n := by
          simp at hl
          omega
        cases hps : pyIsSpace c with
        | true =>
          have heq : pySplitWords (c :: cs) = pySplitWords cs := by
            rw [pySplitWords, if_pos hps]
          rw [heq]
          exact MaxChunks.ws hps (ih cs hlen)
        | false =>
          have heq : pySplitWords (c :: cs)
              = (c :: cs.takeWhile (fun d => ! pyIsSpace d)) ::
                  pySplitWords (cs.dropWhile (fun d => ! pyIsSpace d)) := by
            rw [pySplitWords, if_neg (by simp [hps])]
          rw [heq]
          have hsplit : c :: cs
              = (c :: cs.takeWhile (fun d => ! pyIsSpace d)) ++
                  cs.dropWhile (fun d => ! pyIsSpace d) := by
            simp [List.takeWhile_append_dropWhile]
          rw [hsplit]
          apply MaxChunks.chunk
          · simp
          · intro ch hch
            rcases List.mem_cons.mp hch with rfl | hmem
            · exact hps
            · have := List.mem_takeWhile_imp hmem
              simpa using this
          · rcases hrest : cs.dropWhile (fun d => ! pyIsSpace d) with _ | ⟨d, ds⟩
            · exact Or.inl rfl
            · refine Or.inr ⟨d, ds, rfl, ?_⟩
              have hhead := List.head?_dropWhile_not
                (fun d => ! pyIsSpace d) cs
              rw [hrest] at hhead
              simpa using hhead
          · apply ih
            have := (List.dropWhile_sublist (l := cs)
              (fun d => ! pyIsSpace d)).length_le
            omega
  exact H line.length line le_rfl

/-- C8: `char`-mode tokens of a line concatenate back to the line, and
`word`-mode tokens are exactly the maximal whitespace-free substrings of
the line (splitting on whitespace boundaries only), as captured by
`MaxChunks`. -/
theorem tokenize_char_word_spec (lines : List (List Char)) (line : List Char) :
    tokenize lines "char"
      = Except.ok (lines.map (fun l => l.map (fun c => [c]))) ∧
    ((line.map (fun c => [c])).flatten : List Char) = line ∧
    tokenize lines "word" = Except.ok (lines.map pySplitWords) ∧
    MaxChunks line (pySplitWords line) := by
  refine ⟨?_, charTokens_join line, ?_, pySplitWords_maxChunks line⟩
  · rw [tokenize, if_pos (Or.inr rfl)]
    simp
  · rw [tokenize, if_pos (Or.inl rfl)]
    simp

/-- C7: `download` skips the network fetch exactly when a file of the
derived name already exists in the folder and its SHA-1 digest matches a
supplied checksum, returning the cached path with the file system
untouched; in every other case (no cached file, digest mismatch, or no
checksum supplied) it fetches and overwrites the local file. -/
theorem download_cache_spec (hub : List Char → List Char × List Char)
    (hash : List ℕ → List Char) (remote : List ℕ) (url folder : List Char)
    (sha1_hash : Option (List Char)) (fs : List Char → Option (List ℕ))
    (hurl : "http".toList.isPrefixOf url = true) :
    (download hub hash remote url folder sha1_hash fs
        = (folder ++ '/' :: (splitOnChar '/' url).getLastD [], fs, false)
      ↔ ∃ c h, fs (folder ++ '/' :: (splitOnChar '/' url).getLastD []) = some c ∧
          sha1_hash = some h ∧ hash c = h) ∧
    ((¬ ∃ c h, fs (folder ++ '/' :: (splitOnChar '/' url).getLastD []) = some c ∧
          sha1_hash = some h ∧ hash c = h) →
      download hub hash remote url folder sha1_hash fs
        = (folder ++ '/' :: (splitOnChar '/' url).getLastD [],
            fun q =>
              if q = folder ++ '/' :: (splitOnChar '/' url).getLastD []
              then some remote else fs q,
            true)) := by
  have hbody : download hub hash remote url folder sha1_hash fs
      = (match fs (folder ++ '/' :: (splitOnChar '/' url).getLastD []),
            sha1_hash with
         | some content, some h =>
           if hash content = h then
             (folder ++ '/' :: (splitOnChar '/' url).getLastD [], fs, false)
           else
             (folder ++ '/' :: (splitOnChar '/' url).getLastD [],
               fun q =>
                 if q = folder ++ '/' :: (splitOnChar '/' url).getLastD []
                 then some remote else fs q,
               true)
         | _, _ =>
             (folder ++ '/' :: (splitOnChar '/' url).getLastD [],
               fun q =>
                 if q = folder ++ '/' :: (splitOnChar '/' url).getLastD []
                 then some remote else fs q,
               true)) := by
    unfold download
    rw [if_pos hurl]
  rcases hfs : fs (folder ++ '/' :: (splitOnChar '/' url).getLastD []) with _ | c
  · have hrun : download hub hash remote url folder sha1_hash fs
        = (folder ++ '/' :: (splitOnChar '/' url).getLastD [],
            fun q =>
              if q = folder ++ '/' :: (splitOnChar '/' url).getLastD []
              then some remote else fs q,
            true) := by
      rw [hbody, hfs]
    refine ⟨?_, fun _ => hrun⟩
    rw [hrun]
    constructor
    · intro hEq
      have h22 := congrArg (fun t => t.2.2) hEq
      simp at h22
    · rintro ⟨c, h, hc, _, _⟩
      exact absurd hc (by simp)
  · rcases sha1_hash with _ | h
    · have hrun : download hub hash remote url folder none fs
          = (folder ++ '/' :: (splitOnChar '/' url).getLastD [],
              fun q =>
                if q = folder ++ '/' :: (splitOnChar '/' url).getLastD []
                then some remote else fs q,
              true) := by
        rw [hbody, hfs]
      refine ⟨?_, fun _ => hrun⟩
      rw [hrun]
      constructor
      · intro hEq
        have h22 := congrArg (fun t => t.2.2) hEq
        simp at h22
      · rintro ⟨c, h, _, hsome, _⟩
        exact absurd hsome (by simp)
    · by_cases hh : hash c = h
      · have hrun : download hub hash remote url folder (some h) fs
            = (folder ++ '/' :: (splitOnChar '/' url).getLastD [], fs, false) := by
          rw [hbody, hfs]
          simp [hh]
        refine ⟨?_, fun hne => absurd ⟨c, h, rfl, rfl, hh⟩ hne⟩
        rw [hrun]
        exact iff_of_true rfl ⟨c, h, rfl, rfl, hh⟩
      · have hrun : download hub hash remote url folder (some h) fs
            = (folder ++ '/' :: (splitOnChar '/' url).getLastD [],
                fun q =>
                  if q = folder ++ '/' :: (splitOnChar '/' url).getLastD []
                  then some remote else fs q,
                true) := by
          rw [hbody, hfs]
          simp [hh]
        refine ⟨?_, fun _ => hrun⟩
        rw [hrun]
        constructor
        · intro hEq
          have h22 := congrArg (fun t => t.2.2) hEq
          simp at h22
        · rintro ⟨c2, h2, hc2, hsome2, hh2⟩
          cases hc2
          cases hsome2
          exact absurd hh2 hh

/-- Witness for C7: with no cached file and no checksum, `download`
fetches and overwrites. -/
theorem download_cache_spec_witness :
    ("http".toList.isPrefixOf "http://a/b.zip".toList = true) ∧
    ((download (fun _ => ([], [])) (fun _ => ['h']) [1]
          "http://a/b.zip".toList "data".toList none (fun _ => none)
        = ("data".toList ++ '/' ::
              (splitOnChar '/' "http://a/b.zip".toList).getLastD [],
            fun _ => none, false)
      ↔ ∃ c h, (fun _ => (none : Option (List ℕ)))
            ("data".toList ++ '/' ::
              (splitOnChar '/' "http://a/b.zip".toList).getLastD [])
              = some c ∧
          (none : Option (List Char)) = some h ∧
          (fun _ => ['h']) c = h) ∧
    ((¬ ∃ c h, (fun _ => (none : Option (List ℕ)))
            ("data".toList ++ '/' ::
              (splitOnChar '/' "http://a/b.zip".toList).getLastD [])
              = some c ∧
          (none : Option (List Char)) = some h ∧
          (fun _ => ['h']) c = h) →
      download (fun _ => ([], [])) (fun _ => ['h']) [1]
          "http://a/b.zip".toList "data".toList none (fun _ => none)
        = ("data".toList ++ '/' ::
              (splitOnChar '/' "http://a/b.zip".toList).getLastD [],
            fun q =>
              if q = "data".toList ++ '/' ::
                  (splitOnChar '/' "http://a/b.zip".toList).getLastD []
              then some [1] else (fun _ => (none : Option (List ℕ))) q,
            true))) :=
  ⟨rfl, download_cache_spec (fun _ => ([], [])) (fun _ => ['h']) [1]
    "http://a/b.zip".toList "data".toList none (fun _ => none) rfl⟩

/-- C9: in the batch built by `build_array_nmt`, there are as many
valid-length values as padded rows, and the valid-length value paired
with row `i` equals the number of entries of that padded row that are
not the padding token's index. -/
theorem build_array_nmt_valid_len (vocab : String → ℕ)
    (lines : List (List String)) (num_steps i : ℕ) (hi : i < lines.length) :
    ((build_array_nmt vocab lines num_steps).2).length
      = ((build_array_nmt vocab lines num_steps).1).length ∧
    ((build_array_nmt vocab lines num_steps).2).getD i 0
      = (((build_array_nmt vocab lines num_steps).1).getD i []).countP
          (fun x => x != vocab "<pad>") := by
  constructor
  · simp [build_array_nmt]
  · have hlen : i < (build_array_nmt vocab lines num_steps).1.length := by
      simpa [build_array_nmt] using hi
    have h2 : (build_array_nmt vocab lines num_steps).2
        = ((build_array_nmt vocab lines num_steps).1).map
            (fun row => row.countP (fun x => x != vocab "<pad>")) := rfl
    rw [h2, List.getD_eq_getElem _ _ (by simpa using hlen),
      List.getElem_map, List.getD_eq_getElem _ _ hlen]

/-- Witness for C9 at a one-line batch. -/
theorem build_array_nmt_valid_len_witness :
    0 < ([["ab"]] : List (List String)).length ∧
    (((build_array_nmt (fun s => s.length) [["ab"]] 3).2).length
        = ((build_array_nmt (fun s => s.length) [["ab"]] 3).1).length ∧
      ((build_array_nmt (fun s => s.length) [["ab"]] 3).2).getD 0 0
        = (((build_array_nmt (fun s => s.length) [["ab"]] 3).1).getD 0 []).countP
            (fun x => x != ("<pad>" : String).length)) :=
  ⟨by decide, build_array_nmt_valid_len (fun s => s.length) [["ab"]] 3 0
    (by decide)⟩

theorem map_const_getD {α : Type} (l : List α) (v : α) (k : ℕ) :
    (l.map (fun _ => v)).getD k v = v := by
  rcases Nat.lt_or_ge k l.length with h | h
  · rw [List.getD_eq_getElem _ _ (by simpa using h), List.getElem_map]
  · rw [List.getD_eq_default _ _ (by simpa using h)]

theorem enum_mask_getD {α : Type} (value : α) (row : List α) (v j : ℕ) :
    ((row.enum.map (fun jx => if jx.1 < v then jx.2 else value)).getD j value)
      = if j < v then row.getD j value else value := by
  rcases Nat.lt_or_ge j row.length with h | h
  · have hm : j < (row.enum.map
        (fun jx => if jx.1 < v then jx.2 else value)).length := by
      simpa [List.enum_length] using h
    rw [List.getD_eq_getElem _ _ hm, List.getElem_map, List.getElem_enum,
      List.getD_eq_getElem _ _ h]
  · have hm : (row.enum.map
        (fun jx => if jx.1 < v then jx.2 else value)).length ≤ j := by
      simpa [List.enum_length] using h
    rw [List.getD_eq_default _ _ hm, List.getD_eq_default _ _ h]
    simp

theorem enum_mask3_getD {α : Type} (value : α) (row : List (List α))
    (v j k : ℕ) (hj : j < row.length) :
    (((row.enum.map (fun jx =>
          if jx.1 < v then jx.2 else jx.2.map (fun _ => value))).getD j
        []).getD k value)
      = if j < v then (row.getD j []).getD k value else value := by
  have hm : j < (row.enum.map (fun jx =>
      if jx.1 < v then jx.2 else jx.2.map (fun _ => value))).length := by
    simpa [List.enum_length] using hj
  rw [List.getD_eq_getElem _ _ hm, List.getElem_map, List.getElem_enum,
    List.getD_eq_getElem _ _ hj]
  by_cases hv : j < v
  · rw [if_pos hv, if_pos hv]
  · rw [if_neg hv, if_neg hv, map_const_getD]

theorem sequence_mask2_row {α : Type} (value : α) (X : List (List α))
    (vl : List ℕ) (i : ℕ) (hl : vl.length = X.length) (hi : i < X.length) :
    (sequence_mask2 X vl value).getD i []
      = (X.getD i []).enum.map
          (fun jx => if jx.1 < vl.getD i 0 then jx.2 else value) := by
  have hz : i < (X.zip vl).length := by
    rw [List.length_zip]
    omega
  have hm : i < ((X.zip vl).map (fun rv =>
      rv.1.enum.map (fun jx => if jx.1 < rv.2 then jx.2 else value))).length := by
    simpa using hz
  rw [sequence_mask2, List.getD_eq_getElem _ _ hm, List.getElem_map,
    List.getD_eq_getElem _ _ hi, List.getD_eq_getElem vl 0 (by omega)]
  simp [List.getElem_zip]

theorem sequence_mask3_row {α : Type} (value : α) (X : List (List (List α)))
    (vl : List ℕ) (i : ℕ) (hl : vl.length = X.length) (hi : i < X.length) :
    (sequence_mask3 X vl value).getD i []
      = (X.getD i []).enum.map
          (fun jx => if jx.1 < vl.getD i 0 then jx.2
            else jx.2.map (fun _ => value)) := by
  have hz : i < (X.zip vl).length := by
    rw [List.length_zip]
    omega
  have hm : i < ((X.zip vl).map (fun rv =>
      rv.1.enum.map (fun jx => if jx.1 < rv.2 then jx.2
        else jx.2.map (fun _ => value)))).length := by
    simpa using hz
  rw [sequence_mask3, List.getD_eq_getElem _ _ hm, List.getElem_map,
    List.getD_eq_getElem _ _ hi, List.getD_eq_getElem vl 0 (by omega)]
  simp [List.getElem_zip]

/-- C10: `sequence_mask` keeps the input's shape, and entry `(i, j)` of
the 2-D result equals `X[i][j]` when `j < valid_len[i]` and the
replacement value otherwise; for 3-D input the same holds along the
second axis with the trailing axis kept intact (every entry `(i, j, k)`
of a masked-out row `j` becomes the replacement value). -/
theorem sequence_mask_spec {α : Type} (value : α)
    (X2 : List (List α)) (vl2 : List ℕ) (i2 j2 : ℕ)
    (X3 : List (List (List α))) (vl3 : List ℕ) (i3 j3 k3 : ℕ)
    (hl2 : vl2.length = X2.length) (hi2 : i2 < X2.length)
    (hl3 : vl3.length = X3.length) (hi3 : i3 < X3.length)
    (hj3 : j3 < (X3.getD i3 []).length) :
    (sequence_mask2 X2 vl2 value).length = X2.length ∧
    ((sequence_mask2 X2 vl2 value).getD i2 []).length
      = (X2.getD i2 []).length ∧
    ((sequence_mask2 X2 vl2 value).getD i2 []).getD j2 value
      = (if j2 < vl2.getD i2 0 then (X2.getD i2 []).getD j2 value
         else value) ∧
    (sequence_mask3 X3 vl3 value).length = X3.length ∧
    ((sequence_mask3 X3 vl3 value).getD i3 []).length
      = (X3.getD i3 []).length ∧
    (((sequence_mask3 X3 vl3 value).getD i3 []).getD j3 []).getD k3 value
      = (if j3 < vl3.getD i3 0
         then ((X3.getD i3 []).getD j3 []).getD k3 value else value) := by
  refine ⟨?_, ?_, ?_, ?_, ?_, ?_⟩
  · simp [sequence_mask2, List.length_zip]
    omega
  · rw [sequence_mask2_row value X2 vl2 i2 hl2 hi2]
    simp [List.enum_length]
  · rw [sequence_mask2_row value X2 vl2 i2 hl2 hi2, enum_mask_getD]
  · simp [sequence_mask3, List.length_zip]
    omega
  · rw [sequence_mask3_row value X3 vl3 i3 hl3 hi3]
    simp [List.enum_length]
  · rw [sequence_mask3_row value X3 vl3 i3 hl3 hi3,
      enum_mask3_getD value (X3.getD i3 []) (vl3.getD i3 0) j3 k3 hj3]

/-- Witness for C10 on a 1×2 two-dimensional input and a 1×1×1
three-dimensional input. -/
theorem sequence_mask_spec_witness :
    (([1] : List ℕ).length = ([[10, 20]] : List (List ℕ)).length ∧
      0 < ([[10, 20]] : List (List ℕ)).length ∧
      ([0] : List ℕ).length = ([[[5]]] : List (List (List ℕ))).length ∧
      0 < ([[[5]]] : List (List (List ℕ))).length ∧
      0 < (([[[5]]] : List (List (List ℕ))).getD 0 []).length) ∧
    ((sequence_mask2 [[10, 20]] [1] 0).length
        = ([[10, 20]] : List (List ℕ)).length ∧
      ((sequence_mask2 [[10, 20]] [1] 0).getD 0 []).length
        = (([[10, 20]] : List (List ℕ)).getD 0 []).length ∧
      ((sequence_mask2 [[10, 20]] [1] 0).getD 0 []).getD 1 0
        = (if 1 < ([1] : List ℕ).getD 0 0
           then (([[10, 20]] : List (List ℕ)).getD 0 []).getD 1 0 else 0) ∧
      (sequence_mask3 [[[5]]] [0] 0).length
        = ([[[5]]] : List (List (List ℕ))).length ∧
      ((sequence_mask3 [[[5]]] [0] 0).getD 0 []).length
        = (([[[5]]] : List (List (List ℕ))).getD 0 []).length ∧
      (((sequence_mask3 [[[5]]] [0] 0).getD 0 []).getD 0 []).getD 0 0
        = (if 0 < ([0] : List ℕ).getD 0 0
           then ((([[[5]]] : List (List (List ℕ))).getD 0 []).getD 0 []).getD 0 0
           else 0)) :=
  ⟨⟨rfl, by decide, rfl, by decide, by decide⟩,
    sequence_mask_spec 0 [[10, 20]] [1] 0 1 [[[5]]] [0] 0 0 0
      rfl (by decide) rfl (by decide) (by decide)⟩

end D2L
